import Mathlib

/-!
Verification development for the `ais-pull` batch pipeline.

The development shallowly embeds the repository's Python sources:

* `process_ais.py` — the two-stage spatial filter (`stage1`, `sjoin_within`,
  `process_filter`, `get_lease_bounds`) together with an exact model of the
  point-in-polygon predicate `within` used by the spatial join
  (`pointWithin`: strict interior test via ray crossing parity, boundary
  points excluded);
* `download_ais.py` — the idempotent fetcher (`download_ais`), with an event
  trace recording network downloads and archive extractions;
* `batch_process.py` — the per-day orchestrator (`process_date`,
  `cleanup_download`, `mark_completed`, `generate_dates`, `processAll`,
  `main_run`) over an explicit file-system state (`FS`) and an environment
  (`Env`) that fixes, per day, whether each effectful step succeeds;
* `config.py` — `EXCLUDED_VESSEL_TYPES`.

Coordinates are modelled over an arbitrary linear ordered commutative ring
(the program's floating-point coordinates with their exact comparisons).
Python `datetime.date` values are represented by their ordinal day number
(`date.toordinal`), an order isomorphism under which adding one day is `+ 1`
and ISO/calendar order is the order on `Nat`.
-/

/-- A longitude/latitude point `(lon, lat)`, i.e. `(x, y)`. -/
abbrev Pt (α : Type) := α × α

/-- The cyclic edge list of a polygon ring: each vertex paired with its
cyclic successor. -/
def edges {α : Type} (ring : List (Pt α)) : List (Pt α × Pt α) :=
  ring.zip (ring.rotate 1)

/-- Point `p` lies on the closed segment from `a` to `b`: collinear and
inside the coordinate ranges of the two endpoints. -/
def onSegment {α : Type} [LinearOrderedCommRing α] (p a b : Pt α) : Bool :=
  decide ((b.1 - a.1) * (p.2 - a.2) = (b.2 - a.2) * (p.1 - a.1))
  && decide (min a.1 b.1 ≤ p.1) && decide (p.1 ≤ max a.1 b.1)
  && decide (min a.2 b.2 ≤ p.2) && decide (p.2 ≤ max a.2 b.2)

/-- Point `p` lies on the boundary of the ring (on some edge). -/
def onBoundary {α : Type} [LinearOrderedCommRing α] (p : Pt α) (ring : List (Pt α)) : Bool :=
  (edges ring).any fun e => onSegment p e.1 e.2

/-- Edge `e` straddles the horizontal line through `p`: exactly one endpoint
is strictly above it. -/
def straddles {α : Type} [LinearOrderedCommRing α] (p : Pt α) (e : Pt α × Pt α) : Bool :=
  decide (p.2 < e.1.2) != decide (p.2 < e.2.2)

/-- Numerator of `xIntersect - p.x` scaled by the edge's y-extent: the sign
test `0 < nrm p e` together with the sign of `e.2.2 - e.1.2` decides whether
the horizontal ray from `p` towards `+x` meets the straddling edge `e`
strictly to the right of `p` (division-free form of the standard ray-casting
test). -/
def nrm {α : Type} [LinearOrderedCommRing α] (p : Pt α) (e : Pt α × Pt α) : α :=
  (e.2.1 - e.1.1) * (p.2 - e.1.2) - (e.2.2 - e.1.2) * (p.1 - e.1.1)

/-- The eastward horizontal ray from `p` crosses edge `e`. -/
def crossesRay {α : Type} [LinearOrderedCommRing α] (p : Pt α) (e : Pt α × Pt α) : Bool :=
  straddles p e && (decide (0 < nrm p e) == decide (0 < e.2.2 - e.1.2))

/-- Number of ring edges crossed by the eastward ray from `p`. -/
def crossingNumber {α : Type} [LinearOrderedCommRing α] (p : Pt α) (ring : List (Pt α)) : Nat :=
  (edges ring).countP (crossesRay p)

/-- Model of the geometric predicate `within` used by
`gpd.sjoin(..., predicate="within")` for a point against a simple polygon
ring: the point is strictly interior — not on the boundary, and with odd
crossing parity.  Boundary points never satisfy it. -/
def pointWithin {α : Type} [LinearOrderedCommRing α] (p : Pt α) (ring : List (Pt α)) : Bool :=
  !onBoundary p ring && (crossingNumber p ring % 2 == 1)

/-- One wind-farm lease area: its `LEASE_NUMBER` identifier and the vertex
ring of its boundary polygon (`process_ais.py:load_lease_boundaries`). -/
structure Lease (α : Type) where
  leaseNumber : String
  ring : List (Pt α)
deriving DecidableEq

/-- An axis-aligned bounding box, as returned by
`process_ais.py:get_lease_bounds` (keys `min_lon`/`min_lat`/`max_lon`/`max_lat`). -/
structure Bounds (α : Type) where
  min_lon : α
  min_lat : α
  max_lon : α
  max_lat : α
deriving DecidableEq

/-- Extend a bounding box to cover one more point. -/
def boundsAdd {α : Type} [LinearOrderedCommRing α] (b : Bounds α) (q : Pt α) : Bounds α :=
  ⟨min b.min_lon q.1, min b.min_lat q.2, max b.max_lon q.1, max b.max_lat q.2⟩

/-- Bounding box of a list of points (geopandas `total_bounds` over the
vertices). -/
def ptsBounds {α : Type} [LinearOrderedCommRing α] : List (Pt α) → Bounds α
  | [] => ⟨0, 0, 0, 0⟩
  | q :: rest => rest.foldl boundsAdd ⟨q.1, q.2, q.1, q.2⟩

/-- All polygon vertices of all leases. -/
def allVertices {α : Type} (leases : List (Lease α)) : List (Pt α) :=
  leases.flatMap Lease.ring

/-- Embedding of `process_ais.py:get_lease_bounds`: the combined bounding box
of all lease polygons. -/
def get_lease_bounds {α : Type} [LinearOrderedCommRing α] (leases : List (Lease α)) : Bounds α :=
  ptsBounds (allVertices leases)

/-- The point lies inside the bounding box (inclusive). -/
def inBounds {α : Type} [LinearOrderedCommRing α] (b : Bounds α) (p : Pt α) : Prop :=
  b.min_lon ≤ p.1 ∧ p.1 ≤ b.max_lon ∧ b.min_lat ≤ p.2 ∧ p.2 ≤ b.max_lat

/-- One raw AIS broadcast record (columns used by the filter; remaining
columns are carried through unchanged and play no role in the claims). -/
structure Row (α : Type) where
  mmsi : Int
  vesselType : Int
  lat : α
  lon : α
deriving DecidableEq

/-- Embedding of `config.py:EXCLUDED_VESSEL_TYPES = [30, 36, 37, *range(60, 70)]`. -/
def EXCLUDED_VESSEL_TYPES : List Int :=
  [30, 36, 37] ++ (List.range 10).map (fun i => 60 + (i : Int))

/-- Stage 1 of `process_ais.py:process_ais`: the polars streaming filter —
keep a row iff `LAT != 91`, `LON != 181`, the vessel type is not excluded,
and the coordinates are within the combined bounding box. -/
def stage1 {α : Type} [LinearOrderedCommRing α] (rows : List (Row α)) (b : Bounds α) :
    List (Row α) :=
  rows.filter fun row =>
    decide (row.lat ≠ 91) && decide (row.lon ≠ 181)
    && !(decide (row.vesselType ∈ EXCLUDED_VESSEL_TYPES))
    && decide (b.min_lat ≤ row.lat) && decide (row.lat ≤ b.max_lat)
    && decide (b.min_lon ≤ row.lon) && decide (row.lon ≤ b.max_lon)

/-- The `(lon, lat)` point geometry built for a row
(`Point(lon, lat)` in `process_ais.py`). -/
def rowPt {α : Type} (row : Row α) : Pt α := (row.lon, row.lat)

/-- Stage 2 of `process_ais.py:process_ais`: the inner spatial join with
`predicate="within"` — every (row, lease) pair whose point is strictly
within the lease polygon yields an output row tagged with that lease's
`LEASE_NUMBER`. -/
def sjoin_within {α : Type} [LinearOrderedCommRing α]
    (rows : List (Row α)) (leases : List (Lease α)) : List (Row α × String) :=
  rows.flatMap fun row =>
    (leases.filter fun L => pointWithin (rowPt row) L.ring).map
      fun L => (row, L.leaseNumber)

/-- The full pure filtering pipeline of `process_ais.py:process_ais`:
stage-1 prefilter against the combined lease bounds, then the exact
containment join. -/
def process_filter {α : Type} [LinearOrderedCommRing α]
    (rows : List (Row α)) (leases : List (Lease α)) : List (Row α × String) :=
  sjoin_within (stage1 rows (get_lease_bounds leases)) leases

/-- Calendar days, represented by their ordinal number (`date.toordinal`). -/
abbrev Day := Nat

/-- Local durable state visible to the orchestrator: which day's compressed
archive (`AIS_y_m_d.zip`) and decompressed raw form (`AIS_y_m_d.csv`) exist
in `data/`, which day's GeoPackage exists in `output/`, and the lines of
`progress.txt`. -/
structure FS where
  zip : Day → Bool
  csv : Day → Bool
  outputs : Day → Bool
  ledger : List Day

/-- Point-update of a per-day file-presence map. -/
def fsSet (f : Day → Bool) (d : Day) (v : Bool) : Day → Bool :=
  fun x => if x = d then v else f x

/-- The environment a run executes in: the lease polygon source (whether it
parses, and its content), the per-day raw data, and whether each effectful
step (network transfer, archive extraction, CSV scan, GeoPackage write)
succeeds on each day. -/
structure Env (α : Type) where
  polygonOk : Bool
  leases : List (Lease α)
  netOk : Day → Bool
  extractOk : Day → Bool
  csvOk : Day → Bool
  sinkOk : Day → Bool
  rows : Day → List (Row α)

/-- Local paths handed between the pipeline stages. -/
inductive EPath
  | zipFile (d : Day)
  | csvFile (d : Day)
  | gpkgFile (d : Day)
deriving DecidableEq

/-- The per-day failure modes: network/transport failure, corrupt archive,
polygon source missing or unparsable, malformed raw CSV, output write error. -/
inductive PErr
  | netError
  | zipError
  | polygonError
  | csvError
  | writeError
deriving DecidableEq

/-- Observable effects of the fetcher: a network download, an archive
extraction. -/
inductive FetchEv
  | download
  | extract
deriving DecidableEq

/-- Embedding of `download_ais.py:download_ais` for one day: if the CSV
already exists return it at once; else if the zip exists only extract; else
download then extract.  The second component is the file-system state after
the call (returned also on failure, since Python exceptions do not undo file
writes); the event list records the network and extraction operations
performed. -/
def download_ais {α : Type} (e : Env α) (d : Day) (fs : FS) :
    Except PErr (EPath × List FetchEv) × FS :=
  if fs.csv d then (.ok (.csvFile d, []), fs)
  else if fs.zip d then
    if e.extractOk d then
      (.ok (.csvFile d, [.extract]), { fs with csv := fsSet fs.csv d true })
    else (.error .zipError, fs)
  else if e.netOk d then
    if e.extractOk d then
      (.ok (.csvFile d, [.download, .extract]),
        { fs with zip := fsSet fs.zip d true, csv := fsSet fs.csv d true })
    else (.error .zipError, { fs with zip := fsSet fs.zip d true })
  else (.error .netError, fs)

/-- Embedding of `process_ais.py:process_ais` at the orchestration level:
load the lease boundaries (failing fatally-for-this-call if the polygon
source is missing or unparsable), scan the CSV, run the pure filter; if no
record survives return `none` (explicit empty signal, no file written),
otherwise write the day's GeoPackage. -/
def process_ais {α : Type} [LinearOrderedCommRing α] (e : Env α) (d : Day) (fs : FS) :
    Except PErr (Option EPath) × FS :=
  if e.polygonOk then
    if e.csvOk d then
      if (process_filter (e.rows d) e.leases).isEmpty then (.ok none, fs)
      else if e.sinkOk d then
        (.ok (some (.gpkgFile d)), { fs with outputs := fsSet fs.outputs d true })
      else (.error .writeError, fs)
    else (.error .csvError, fs)
  else (.error .polygonError, fs)

/-- Embedding of `batch_process.py:cleanup_download`: remove the day's zip
and csv from local transient storage (each only if present — same result). -/
def cleanup_download (d : Day) (fs : FS) : FS :=
  { fs with zip := fsSet fs.zip d false, csv := fsSet fs.csv d false }

/-- Whether an `Except` is a success. -/
def exceptOk {ε β : Type} : Except ε β → Bool
  | .ok _ => true
  | .error _ => false

/-- Embedding of `batch_process.py:process_date`: download, process, clean
up, returning `true` on success.  The source's `try/except` is rendered by
explicit success tests: if the fetch raises, cleanup runs and `false` is
returned; else if the processing raises, cleanup runs and `false` is
returned; else cleanup runs and `true` is returned. -/
def process_date {α : Type} [LinearOrderedCommRing α] (e : Env α) (d : Day) (fs : FS) :
    Bool × FS :=
  if exceptOk (download_ais e d fs).1 then
    if exceptOk (process_ais e d (download_ais e d fs).2).1 then
      (true, cleanup_download d (process_ais e d (download_ais e d fs).2).2)
    else (false, cleanup_download d (process_ais e d (download_ais e d fs).2).2)
  else (false, cleanup_download d (download_ais e d fs).2)

/-- Embedding of `batch_process.py:mark_completed`: append the day to
`progress.txt`. -/
def mark_completed (d : Day) (fs : FS) : FS :=
  { fs with ledger := fs.ledger ++ [d] }

/-- Embedding of `batch_process.py:load_completed_dates` (used for
membership tests only, so the line list itself is returned). -/
def load_completed_dates (fs : FS) : List Day := fs.ledger

/-- Embedding of `batch_process.py:generate_dates`: all days from `s` to
`e` inclusive, in ascending order (the `while current <= end_date` loop). -/
def generate_dates (s e : Nat) : List Day :=
  if h : s ≤ e then s :: generate_dates (s + 1) e else []
termination_by e + 1 - s
decreasing_by omega

/-- The per-day loop body of `batch_process.py:main`, over a list of days:
process each day in order, appending successful days to the ledger and
counting successes and failures; the final component is the trace of days
attempted (the per-day log lines). -/
def processAll {α : Type} [LinearOrderedCommRing α] (e : Env α) :
    List Day → FS → FS × Nat × Nat × List Day
  | [], fs => (fs, 0, 0, [])
  | d :: rest, fs =>
    let r := process_date e d fs
    let fs2 := if r.1 then mark_completed d r.2 else r.2
    let q := processAll e rest fs2
    (q.1, if r.1 then q.2.1 + 1 else q.2.1,
      if r.1 then q.2.2.1 else q.2.2.1 + 1, d :: q.2.2.2)

/-- The remaining day set computed by `batch_process.py:main`: the full date
range minus the days already in the progress ledger. -/
def remainingDays (fs : FS) (s t : Day) : List Day :=
  (generate_dates s t).filter fun d => decide (d ∉ load_completed_dates fs)

/-- Embedding of `batch_process.py:main`: load progress, compute remaining
days, process them in order.  Returns the final state, the success count,
the error count, and the trace of processed days. -/
def main_run {α : Type} [LinearOrderedCommRing α] (e : Env α) (s t : Day) (fs : FS) :
    FS × Nat × Nat × List Day :=
  processAll e (remainingDays fs s t) fs

/-- Truth table of fetch success for one day, as a function of whether the
zip and csv are already present. -/
def fetchOk {α : Type} (e : Env α) (d : Day) (zipP csvP : Bool) : Bool :=
  csvP || ((zipP || e.netOk d) && e.extractOk d)

/-- Truth table of full per-day success (the Boolean `process_date`
returns), as a function of whether the zip and csv are already present. -/
def dayOk {α : Type} [LinearOrderedCommRing α] (e : Env α) (d : Day) (zipP csvP : Bool) : Bool :=
  fetchOk e d zipP csvP && e.polygonOk && e.csvOk d
  && ((process_filter (e.rows d) e.leases).isEmpty || e.sinkOk d)

/-- Number of sign changes along a path of Booleans (adjacent unequal
pairs); used to show that a closed ring crosses any horizontal line an even
number of times. -/
def pathChanges : List Bool → Nat
  | a :: b :: t => (if a = b then 0 else 1) + pathChanges (b :: t)
  | _ => 0

/-- Concrete square lease polygon used to evaluate the theorems on explicit
inputs. -/
def wLease : Lease Int := ⟨"OCS-A 0001", [(0, 0), (4, 0), (4, 4), (0, 4)]⟩

/-- A row strictly inside `wLease` with a non-excluded vessel type. -/
def wRowIn : Row Int := ⟨111, 70, 2, 2⟩

/-- A row with an excluded vessel type (fishing, code 30). -/
def wRowExcluded : Row Int := ⟨222, 30, 1, 1⟩

/-- A row with a non-excluded vessel type whose point lies exactly on the
boundary of `wLease` (bottom edge, `(lon, lat) = (2, 0)`). -/
def wRowBoundary : Row Int := ⟨333, 70, 0, 2⟩

/-- Environment in which every step succeeds and each day's data is the
single in-lease row. -/
def wEnvGood : Env Int :=
  ⟨true, [wLease], fun _ => true, fun _ => true, fun _ => true, fun _ => true,
    fun _ => [wRowIn]⟩

/-- Environment whose polygon source is unparsable; everything else
succeeds. -/
def wEnvNoPoly : Env Int :=
  ⟨false, [], fun _ => true, fun _ => true, fun _ => true, fun _ => true, fun _ => []⟩

/-- Environment in which every step succeeds but every record is filtered
out (excluded vessel type). -/
def wEnvEmpty : Env Int :=
  ⟨true, [wLease], fun _ => true, fun _ => true, fun _ => true, fun _ => true,
    fun _ => [wRowExcluded]⟩

/-- Environment in which the network transfer fails on day 1 only, and every
day's data filters to empty. -/
def wEnvNetFail : Env Int :=
  ⟨true, [wLease], fun d => !(d == 1), fun _ => true, fun _ => true, fun _ => true,
    fun _ => [wRowExcluded]⟩

/-- Empty local state: no transient files, no outputs, empty ledger. -/
def wFS0 : FS := ⟨fun _ => false, fun _ => false, fun _ => false, []⟩

/-- Local state whose progress ledger already contains day 5. -/
def wFSLedger : FS := ⟨fun _ => false, fun _ => false, fun _ => false, [5]⟩

/-- Local state in which day 3's decompressed CSV is already present. -/
def wFSCsv : FS := ⟨fun _ => false, fun x => x == 3, fun _ => false, []⟩

/-- Local state in which only day 3's compressed archive is present. -/
def wFSZip : FS := ⟨fun x => x == 3, fun _ => false, fun _ => false, []⟩

theorem mem_of_mem_edges {α : Type} (ring : List (Pt α)) (e : Pt α × Pt α)
    (he : e ∈ edges ring) : e.1 ∈ ring ∧ e.2 ∈ ring := by
  obtain ⟨a, b⟩ := e
  simp only [edges] at he
  have h := List.of_mem_zip he
  exact ⟨h.1, List.mem_rotate.mp h.2⟩

theorem straddles_cases {α : Type} [LinearOrderedCommRing α] {p : Pt α} {e : Pt α × Pt α}
    (h : straddles p e = true) :
    (e.2.2 ≤ p.2 ∧ p.2 < e.1.2) ∨ (e.1.2 ≤ p.2 ∧ p.2 < e.2.2) := by
  simp only [straddles, bne_iff_ne, ne_eq, decide_eq_decide] at h
  rcases lt_or_le p.2 e.1.2 with h1 | h1 <;> rcases lt_or_le p.2 e.2.2 with h2 | h2
  · exact absurd (iff_of_true h1 h2) h
  · exact Or.inl ⟨h2, h1⟩
  · exact Or.inr ⟨h1, h2⟩
  · exact absurd (iff_of_false (not_lt.mpr h1) (not_lt.mpr h2)) h

theorem crossesRay_eq_false_of_right {α : Type} [LinearOrderedCommRing α]
    {p : Pt α} {e : Pt α × Pt α} {M : α}
    (ha : e.1.1 ≤ M) (hb : e.2.1 ≤ M) (hp : M < p.1) :
    crossesRay p e = false := by
  cases hs : straddles p e with
  | false => simp [crossesRay, hs]
  | true =>
    unfold crossesRay
    rcases straddles_cases hs with ⟨h1, h2⟩ | ⟨h1, h2⟩
    · have hA : 0 < e.1.2 - p.2 := sub_pos.mpr h2
      have hB : 0 ≤ p.2 - e.2.2 := sub_nonneg.mpr h1
      have hP : 0 < p.1 - M := sub_pos.mpr hp
      have hKa : 0 ≤ M - e.1.1 := sub_nonneg.mpr ha
      have hKb : 0 ≤ M - e.2.1 := sub_nonneg.mpr hb
      have hN : 0 < nrm p e := by
        simp only [nrm]
        nlinarith [mul_pos hA hP, mul_nonneg hA.le hKb, mul_nonneg hB hP.le,
          mul_nonneg hB hKa]
      have hle : e.2.2 ≤ e.1.2 := by linarith
      have hD : ¬(0 < e.2.2 - e.1.2) := fun hc => absurd (sub_pos.mp hc) (not_lt.mpr hle)
      rw [hs, decide_eq_true hN, decide_eq_false hD]
      rfl
    · have hA : 0 ≤ p.2 - e.1.2 := sub_nonneg.mpr h1
      have hB : 0 < e.2.2 - p.2 := sub_pos.mpr h2
      have hP : 0 < p.1 - M := sub_pos.mpr hp
      have hKa : 0 ≤ M - e.1.1 := sub_nonneg.mpr ha
      have hKb : 0 ≤ M - e.2.1 := sub_nonneg.mpr hb
      have hN : ¬(0 < nrm p e) := by
        simp only [nrm, not_lt]
        nlinarith [mul_pos hB hP, mul_nonneg hA hKb, mul_nonneg hA hP.le,
          mul_nonneg hB.le hKa]
      have hD : 0 < e.2.2 - e.1.2 := sub_pos.mpr (lt_of_le_of_lt h1 h2)
      rw [hs, decide_eq_false hN, decide_eq_true hD]
      rfl

theorem crossesRay_eq_straddles_of_left {α : Type} [LinearOrderedCommRing α]
    {p : Pt α} {e : Pt α × Pt α} {m : α}
    (ha : m ≤ e.1.1) (hb : m ≤ e.2.1) (hp : p.1 < m) :
    crossesRay p e = straddles p e := by
  cases hs : straddles p e with
  | false => simp [crossesRay, hs]
  | true =>
    unfold crossesRay
    rcases straddles_cases hs with ⟨h1, h2⟩ | ⟨h1, h2⟩
    · have hA : 0 < e.1.2 - p.2 := sub_pos.mpr h2
      have hB : 0 ≤ p.2 - e.2.2 := sub_nonneg.mpr h1
      have hP : 0 < m - p.1 := sub_pos.mpr hp
      have hKa : 0 ≤ e.1.1 - m := sub_nonneg.mpr ha
      have hKb : 0 ≤ e.2.1 - m := sub_nonneg.mpr hb
      have hN : ¬(0 < nrm p e) := by
        simp only [nrm, not_lt]
        nlinarith [mul_pos hA hP, mul_nonneg hA.le hKb, mul_nonneg hB hP.le,
          mul_nonneg hB hKa]
      have hle : e.2.2 ≤ e.1.2 := by linarith
      have hD : ¬(0 < e.2.2 - e.1.2) := fun hc => absurd (sub_pos.mp hc) (not_lt.mpr hle)
      rw [hs, decide_eq_false hN, decide_eq_false hD]
      rfl
    · have hA : 0 ≤ p.2 - e.1.2 := sub_nonneg.mpr h1
      have hB : 0 < e.2.2 - p.2 := sub_pos.mpr h2
      have hP : 0 < m - p.1 := sub_pos.mpr hp
      have hKa : 0 ≤ e.1.1 - m := sub_nonneg.mpr ha
      have hKb : 0 ≤ e.2.1 - m := sub_nonneg.mpr hb
      have hN : 0 < nrm p e := by
        simp only [nrm]
        nlinarith [mul_pos hB hP, mul_nonneg hA hKb, mul_nonneg hA hP.le,
          mul_nonneg hB.le hKa]
      have hD : 0 < e.2.2 - e.1.2 := sub_pos.mpr (lt_of_le_of_lt h1 h2)
      rw [hs, decide_eq_true hN, decide_eq_true hD]
      rfl

theorem pathChanges_mod_two (l : List Bool) :
    ∀ a z : Bool, pathChanges (a :: (l ++ [z])) % 2 = (if a = z then 0 else 1) := by
  induction l with
  | nil => intro a z; cases a <;> cases z <;> simp [pathChanges]
  | cons c l ih =>
    intro a z
    have h1 : pathChanges (a :: c :: (l ++ [z]))
        = (if a = c then 0 else 1) + pathChanges (c :: (l ++ [z])) := rfl
    rw [List.cons_append, h1, Nat.add_mod, ih c z]
    cases a <;> cases c <;> cases z <;> simp

theorem countP_zip_pathChanges {γ : Type} (f : γ → Bool) (t : List γ) :
    ∀ a z : γ,
      ((a :: t).zip (t ++ [z])).countP (fun q => f q.1 != f q.2)
        = pathChanges (f a :: (t.map f ++ [f z])) := by
  induction t with
  | nil =>
    intro a z
    cases hfa : f a <;> cases hfz : f z <;>
      simp [pathChanges, List.countP_cons, hfa, hfz]
  | cons c t ih =>
    intro a z
    have h1 : ((a :: c :: t).zip ((c :: t) ++ [z]))
        = (a, c) :: ((c :: t).zip (t ++ [z])) := by
      rw [List.cons_append, List.zip_cons_cons]
    rw [h1, List.countP_cons, ih c z]
    have h2 : pathChanges (f a :: ((c :: t).map f ++ [f z]))
        = (if f a = f c then 0 else 1) + pathChanges (f c :: (t.map f ++ [f z])) := rfl
    rw [h2]
    cases hfa : f a <;> cases hfc : f c <;> simp [hfa, hfc] <;> omega

theorem countP_straddles_even {α : Type} [LinearOrderedCommRing α]
    (p : Pt α) (ring : List (Pt α)) :
    (edges ring).countP (straddles p) % 2 = 0 := by
  cases ring with
  | nil => simp [edges]
  | cons a t =>
    have h1 : (a :: t).rotate 1 = t ++ [a] := by
      rw [List.rotate_cons_succ, List.rotate_zero]
    have h2 : (edges (a :: t)).countP (straddles p)
        = ((a :: t).zip (t ++ [a])).countP
            (fun q => (fun v : Pt α => decide (p.2 < v.2)) q.1
              != (fun v : Pt α => decide (p.2 < v.2)) q.2) := by
      rw [edges, h1]
      rfl
    rw [h2, countP_zip_pathChanges (fun v : Pt α => decide (p.2 < v.2)) t a a,
      pathChanges_mod_two]
    simp

theorem crossingNumber_eq_zero_of_const_side {α : Type} [LinearOrderedCommRing α]
    (p : Pt α) (ring : List (Pt α)) (c : Bool)
    (h : ∀ v ∈ ring, decide (p.2 < v.2) = c) : crossingNumber p ring = 0 := by
  unfold crossingNumber
  rw [List.countP_eq_zero]
  intro e he
  obtain ⟨h1, h2⟩ := mem_of_mem_edges ring e he
  simp [crossesRay, straddles, h e.1 h1, h e.2 h2]

theorem crossingNumber_eq_zero_of_right {α : Type} [LinearOrderedCommRing α]
    (p : Pt α) (ring : List (Pt α)) (M : α)
    (h : ∀ v ∈ ring, v.1 ≤ M) (hp : M < p.1) : crossingNumber p ring = 0 := by
  unfold crossingNumber
  rw [List.countP_eq_zero]
  intro e he
  obtain ⟨h1, h2⟩ := mem_of_mem_edges ring e he
  simp [crossesRay_eq_false_of_right (h e.1 h1) (h e.2 h2) hp]

theorem crossingNumber_even_of_left {α : Type} [LinearOrderedCommRing α]
    (p : Pt α) (ring : List (Pt α)) (m : α)
    (h : ∀ v ∈ ring, m ≤ v.1) (hp : p.1 < m) : crossingNumber p ring % 2 = 0 := by
  unfold crossingNumber
  have hc : (edges ring).countP (crossesRay p) = (edges ring).countP (straddles p) := by
    refine List.countP_congr fun e he => ?_
    obtain ⟨h1, h2⟩ := mem_of_mem_edges ring e he
    rw [crossesRay_eq_straddles_of_left (h e.1 h1) (h e.2 h2) hp]
  rw [hc]
  exact countP_straddles_even p ring

theorem inBounds_boundsAdd_self {α : Type} [LinearOrderedCommRing α]
    (b : Bounds α) (q : Pt α) : inBounds (boundsAdd b q) q :=
  ⟨min_le_right _ _, le_max_right _ _, min_le_right _ _, le_max_right _ _⟩

theorem inBounds_boundsAdd_mono {α : Type} [LinearOrderedCommRing α]
    (b : Bounds α) (q p : Pt α) (h : inBounds b p) : inBounds (boundsAdd b q) p :=
  ⟨le_trans (min_le_left _ _) h.1, le_trans h.2.1 (le_max_left _ _),
    le_trans (min_le_left _ _) h.2.2.1, le_trans h.2.2.2 (le_max_left _ _)⟩

theorem foldl_boundsAdd_mem {α : Type} [LinearOrderedCommRing α] (l : List (Pt α)) :
    ∀ (b : Bounds α) (p : Pt α), (p ∈ l ∨ inBounds b p) →
      inBounds (l.foldl boundsAdd b) p := by
  induction l with
  | nil =>
    intro b p h
    rcases h with h | h
    · exact absurd h (List.not_mem_nil p)
    · exact h
  | cons q t ih =>
    intro b p h
    show inBounds (t.foldl boundsAdd (boundsAdd b q)) p
    apply ih
    rcases h with hm | hb
    · rcases List.mem_cons.mp hm with rfl | hm'
      · exact Or.inr (inBounds_boundsAdd_self b p)
      · exact Or.inl hm'
    · exact Or.inr (inBounds_boundsAdd_mono b q p hb)

theorem mem_ptsBounds {α : Type} [LinearOrderedCommRing α]
    (ps : List (Pt α)) (q : Pt α) (h : q ∈ ps) : inBounds (ptsBounds ps) q := by
  cases ps with
  | nil => exact absurd h (List.not_mem_nil q)
  | cons p0 rest =>
    show inBounds (rest.foldl boundsAdd ⟨p0.1, p0.2, p0.1, p0.2⟩) q
    apply foldl_boundsAdd_mem
    rcases List.mem_cons.mp h with rfl | hm
    · exact Or.inr ⟨le_refl _, le_refl _, le_refl _, le_refl _⟩
    · exact Or.inl hm

theorem pointWithin_inBounds {α : Type} [LinearOrderedCommRing α]
    (ring : List (Pt α)) (p : Pt α) (B : Bounds α)
    (hv : ∀ v ∈ ring, inBounds B v) (h : pointWithin p ring = true) :
    inBounds B p := by
  have hodd : crossingNumber p ring % 2 = 1 := by
    simp only [pointWithin, Bool.and_eq_true, beq_iff_eq] at h
    exact h.2
  by_contra hnb
  simp only [inBounds, not_and_or, not_le] at hnb
  rcases hnb with h1 | h1 | h1 | h1
  · have heven := crossingNumber_even_of_left p ring B.min_lon
      (fun v hv' => (hv v hv').1) h1
    omega
  · have hzero := crossingNumber_eq_zero_of_right p ring B.max_lon
      (fun v hv' => (hv v hv').2.1) h1
    omega
  · have hzero := crossingNumber_eq_zero_of_const_side p ring true
      (fun v hv' => decide_eq_true (lt_of_lt_of_le h1 (hv v hv').2.2.1))
    omega
  · have hzero := crossingNumber_eq_zero_of_const_side p ring false
      (fun v hv' => decide_eq_false (not_lt.mpr (le_trans (hv v hv').2.2.2 h1.le)))
    omega

theorem download_ais_ledger {α : Type} (e : Env α) (d : Day) (fs : FS) :
    (download_ais e d fs).2.ledger = fs.ledger := by
  unfold download_ais
  cases h1 : fs.csv d <;> cases h2 : fs.zip d <;> cases h3 : e.netOk d <;>
    cases h4 : e.extractOk d <;> simp_all

theorem download_ais_outputs {α : Type} (e : Env α) (d : Day) (fs : FS) :
    (download_ais e d fs).2.outputs = fs.outputs := by
  unfold download_ais
  cases h1 : fs.csv d <;> cases h2 : fs.zip d <;> cases h3 : e.netOk d <;>
    cases h4 : e.extractOk d <;> simp_all

theorem download_ais_zip_frame {α : Type} (e : Env α) (d : Day) (fs : FS)
    (x : Day) (hx : x ≠ d) : (download_ais e d fs).2.zip x = fs.zip x := by
  unfold download_ais
  cases h1 : fs.csv d <;> cases h2 : fs.zip d <;> cases h3 : e.netOk d <;>
    cases h4 : e.extractOk d <;> simp_all [fsSet, hx]

theorem download_ais_csv_frame {α : Type} (e : Env α) (d : Day) (fs : FS)
    (x : Day) (hx : x ≠ d) : (download_ais e d fs).2.csv x = fs.csv x := by
  unfold download_ais
  cases h1 : fs.csv d <;> cases h2 : fs.zip d <;> cases h3 : e.netOk d <;>
    cases h4 : e.extractOk d <;> simp_all [fsSet, hx]

theorem download_ais_isOk {α : Type} (e : Env α) (d : Day) (fs : FS) :
    exceptOk (download_ais e d fs).1 = fetchOk e d (fs.zip d) (fs.csv d) := by
  unfold download_ais fetchOk
  cases h1 : fs.csv d <;> cases h2 : fs.zip d <;> cases h3 : e.netOk d <;>
    cases h4 : e.extractOk d <;> simp_all [exceptOk]

theorem process_ais_fs {α : Type} [LinearOrderedCommRing α] (e : Env α) (d : Day) (fs : FS) :
    (process_ais e d fs).2.ledger = fs.ledger
    ∧ (process_ais e d fs).2.zip = fs.zip
    ∧ (process_ais e d fs).2.csv = fs.csv := by
  unfold process_ais
  cases h1 : e.polygonOk <;> cases h2 : e.csvOk d <;>
    cases h3 : (process_filter (e.rows d) e.leases).isEmpty <;>
      cases h4 : e.sinkOk d <;> simp_all

theorem process_ais_isOk {α : Type} [LinearOrderedCommRing α] (e : Env α) (d : Day) (fs : FS) :
    exceptOk (process_ais e d fs).1
      = (e.polygonOk && e.csvOk d
          && ((process_filter (e.rows d) e.leases).isEmpty || e.sinkOk d)) := by
  unfold process_ais
  cases h1 : e.polygonOk <;> cases h2 : e.csvOk d <;>
    cases h3 : (process_filter (e.rows d) e.leases).isEmpty <;>
      cases h4 : e.sinkOk d <;> simp_all [exceptOk]

theorem cleanup_download_zip_self (d : Day) (fs : FS) :
    (cleanup_download d fs).zip d = false := by
  simp [cleanup_download, fsSet]

theorem cleanup_download_csv_self (d : Day) (fs : FS) :
    (cleanup_download d fs).csv d = false := by
  simp [cleanup_download, fsSet]

theorem cleanup_download_ledger (d : Day) (fs : FS) :
    (cleanup_download d fs).ledger = fs.ledger := rfl

theorem cleanup_download_outputs (d : Day) (fs : FS) :
    (cleanup_download d fs).outputs = fs.outputs := rfl

theorem cleanup_download_frame (d : Day) (fs : FS) (x : Day) (hx : x ≠ d) :
    (cleanup_download d fs).zip x = fs.zip x
    ∧ (cleanup_download d fs).csv x = fs.csv x := by
  simp [cleanup_download, fsSet, hx]

theorem process_date_fst {α : Type} [LinearOrderedCommRing α] (e : Env α) (d : Day) (fs : FS) :
    (process_date e d fs).1 = dayOk e d (fs.zip d) (fs.csv d) := by
  have hf := download_ais_isOk e d fs
  have hp := process_ais_isOk e d (download_ais e d fs).2
  unfold process_date
  cases hfo : exceptOk (download_ais e d fs).1 with
  | false =>
    rw [hfo] at hf
    simp [hfo, dayOk, ← hf]
  | true =>
    rw [hfo] at hf
    cases hpo : exceptOk (process_ais e d (download_ais e d fs).2).1 with
    | false =>
      rw [hpo] at hp
      simp [hfo, hpo, dayOk, ← hf, ← hp]
    | true =>
      rw [hpo] at hp
      simp [hfo, hpo, dayOk, ← hf, ← hp]

theorem process_date_state {α : Type} [LinearOrderedCommRing α] (e : Env α) (d : Day) (fs : FS) :
    (process_date e d fs).2.ledger = fs.ledger
    ∧ (process_date e d fs).2.zip d = false
    ∧ (process_date e d fs).2.csv d = false
    ∧ ∀ x, x ≠ d → (process_date e d fs).2.zip x = fs.zip x
        ∧ (process_date e d fs).2.csv x = fs.csv x := by
  have hl1 := download_ais_ledger e d fs
  have hz1 := download_ais_zip_frame e d fs
  have hc1 := download_ais_csv_frame e d fs
  obtain ⟨hl2, hz2, hc2⟩ := process_ais_fs e d (download_ais e d fs).2
  unfold process_date
  cases hfo : exceptOk (download_ais e d fs).1 with
  | false =>
    refine ⟨by simp [hfo, cleanup_download_ledger, hl1],
      by simp [hfo, cleanup_download_zip_self],
      by simp [hfo, cleanup_download_csv_self], fun x hx => ?_⟩
    obtain ⟨hz, hc⟩ := cleanup_download_frame d (download_ais e d fs).2 x hx
    constructor
    · simp [hfo, hz, hz1 x hx]
    · simp [hfo, hc, hc1 x hx]
  | true =>
    have hframe : ∀ x, x ≠ d →
        (cleanup_download d (process_ais e d (download_ais e d fs).2).2).zip x = fs.zip x
        ∧ (cleanup_download d (process_ais e d (download_ais e d fs).2).2).csv x
            = fs.csv x := by
      intro x hx
      obtain ⟨hz, hc⟩ := cleanup_download_frame d (process_ais e d (download_ais e d fs).2).2 x hx
      constructor
      · rw [hz, congrFun hz2 x, hz1 x hx]
      · rw [hc, congrFun hc2 x, hc1 x hx]
    have hled : (cleanup_download d (process_ais e d (download_ais e d fs).2).2).ledger
        = fs.ledger := by
      rw [cleanup_download_ledger, hl2, hl1]
    cases hpo : exceptOk (process_ais e d (download_ais e d fs).2).1 with
    | false =>
      exact ⟨by simp [hfo, hpo, hled], by simp [hfo, hpo, cleanup_download_zip_self],
        by simp [hfo, hpo, cleanup_download_csv_self],
        fun x hx => by simpa [hfo, hpo] using hframe x hx⟩
    | true =>
      exact ⟨by simp [hfo, hpo, hled], by simp [hfo, hpo, cleanup_download_zip_self],
        by simp [hfo, hpo, cleanup_download_csv_self],
        fun x hx => by simpa [hfo, hpo] using hframe x hx⟩

theorem mark_completed_ledger (d : Day) (fs : FS) :
    (mark_completed d fs).ledger = fs.ledger ++ [d] := rfl

theorem mark_completed_zip (d : Day) (fs : FS) :
    (mark_completed d fs).zip = fs.zip := rfl

theorem mark_completed_csv (d : Day) (fs : FS) :
    (mark_completed d fs).csv = fs.csv := rfl

theorem processAll_trace {α : Type} [LinearOrderedCommRing α] (e : Env α) (days : List Day) :
    ∀ fs : FS, (processAll e days fs).2.2.2 = days := by
  induction days with
  | nil => intro fs; rfl
  | cons d rest ih =>
    intro fs
    simp only [processAll]
    simp [ih]

theorem processAll_counts {α : Type} [LinearOrderedCommRing α] (e : Env α) (days : List Day) :
    ∀ fs : FS, (processAll e days fs).2.1 + (processAll e days fs).2.2.1 = days.length := by
  induction days with
  | nil => intro fs; rfl
  | cons d rest ih =>
    intro fs
    simp only [processAll]
    cases hr : (process_date e d fs).1 with
    | true =>
      have := ih (mark_completed d (process_date e d fs).2)
      simp [hr]
      omega
    | false =>
      have := ih (process_date e d fs).2
      simp [hr]
      omega

theorem processAll_spec {α : Type} [LinearOrderedCommRing α] (e : Env α) (days : List Day) :
    ∀ fs : FS, days.Nodup →
      (processAll e days fs).1.ledger
          = fs.ledger ++ days.filter (fun d => dayOk e d (fs.zip d) (fs.csv d))
      ∧ (processAll e days fs).2.1
          = (days.filter (fun d => dayOk e d (fs.zip d) (fs.csv d))).length := by
  induction days with
  | nil => intro fs _; simp [processAll]
  | cons d rest ih =>
    intro fs hnd
    have hd_notin : d ∉ rest := (List.nodup_cons.mp hnd).1
    have hrest : rest.Nodup := (List.nodup_cons.mp hnd).2
    have hfst := process_date_fst e d fs
    obtain ⟨hled, _, _, hframe⟩ := process_date_state e d fs
    simp only [processAll]
    cases hok : dayOk e d (fs.zip d) (fs.csv d) with
    | true =>
      rw [hfst, hok, if_pos (rfl : true = true), if_pos (rfl : true = true)]
      have hfs2zip : ∀ x ∈ rest, (mark_completed d (process_date e d fs).2).zip x = fs.zip x := by
        intro x hx
        rw [mark_completed_zip]
        exact (hframe x (fun hxd => hd_notin (hxd ▸ hx))).1
      have hfs2csv : ∀ x ∈ rest, (mark_completed d (process_date e d fs).2).csv x = fs.csv x := by
        intro x hx
        rw [mark_completed_csv]
        exact (hframe x (fun hxd => hd_notin (hxd ▸ hx))).2
      obtain ⟨ihl, ihc⟩ := ih (mark_completed d (process_date e d fs).2) hrest
      have hfilter : rest.filter (fun x => dayOk e x
            ((mark_completed d (process_date e d fs).2).zip x)
            ((mark_completed d (process_date e d fs).2).csv x))
          = rest.filter (fun x => dayOk e x (fs.zip x) (fs.csv x)) := by
        refine List.filter_congr fun x hx => ?_
        rw [hfs2zip x hx, hfs2csv x hx]
      rw [hfilter] at ihl ihc
      constructor
      · rw [ihl, mark_completed_ledger, hled]
        simp [List.filter_cons, hok, List.append_assoc]
      · rw [ihc]
        simp [List.filter_cons, hok]
    | false =>
      rw [hfst, hok, if_neg Bool.false_ne_true, if_neg Bool.false_ne_true]
      have hfs2zip : ∀ x ∈ rest, (process_date e d fs).2.zip x = fs.zip x :=
        fun x hx => (hframe x (fun hxd => hd_notin (hxd ▸ hx))).1
      have hfs2csv : ∀ x ∈ rest, (process_date e d fs).2.csv x = fs.csv x :=
        fun x hx => (hframe x (fun hxd => hd_notin (hxd ▸ hx))).2
      obtain ⟨ihl, ihc⟩ := ih (process_date e d fs).2 hrest
      have hfilter : rest.filter (fun x => dayOk e x
            ((process_date e d fs).2.zip x) ((process_date e d fs).2.csv x))
          = rest.filter (fun x => dayOk e x (fs.zip x) (fs.csv x)) := by
        refine List.filter_congr fun x hx => ?_
        rw [hfs2zip x hx, hfs2csv x hx]
      rw [hfilter] at ihl ihc
      constructor
      · rw [ihl, hled]
        simp [List.filter_cons, hok]
      · rw [ihc]
        simp [List.filter_cons, hok]

theorem generate_dates_eq_range (s e : Nat) :
    generate_dates s e = List.range' s (e + 1 - s) := by
  rw [generate_dates]
  split
  next h =>
    rw [generate_dates_eq_range (s + 1) e]
    have h2 : e + 1 - s = (e + 1 - (s + 1)) + 1 := by omega
    rw [h2, List.range'_succ]
  next h =>
    have h2 : e + 1 - s = 0 := by omega
    rw [h2, List.range']
termination_by e + 1 - s
decreasing_by omega

theorem mem_generate_dates (s e d : Nat) :
    d ∈ generate_dates s e ↔ s ≤ d ∧ d ≤ e := by
  rw [generate_dates_eq_range, List.mem_range'_1]
  constructor <;> intro h <;> exact ⟨h.1, by omega⟩

theorem generate_dates_sorted (s e : Nat) :
    List.Pairwise (· < ·) (generate_dates s e) := by
  rw [generate_dates]
  split
  next h =>
    refine List.Pairwise.cons ?_ (generate_dates_sorted (s + 1) e)
    intro d hd
    have h2 := (mem_generate_dates (s + 1) e d).mp hd
    exact Nat.lt_of_lt_of_le (Nat.lt_succ_self s) h2.1
  next h => exact List.Pairwise.nil
termination_by e + 1 - s
decreasing_by omega

theorem generate_dates_nodup (s e : Nat) : (generate_dates s e).Nodup :=
  (generate_dates_sorted s e).imp ne_of_lt

theorem remainingDays_nodup (fs : FS) (s t : Nat) : (remainingDays fs s t).Nodup :=
  (generate_dates_nodup s t).filter _

theorem remainingDays_sorted (fs : FS) (s t : Nat) :
    List.Pairwise (· < ·) (remainingDays fs s t) :=
  (generate_dates_sorted s t).filter _

theorem mem_excluded_iff (v : Int) :
    v ∈ EXCLUDED_VESSEL_TYPES
      ↔ (v = 30 ∨ v = 36 ∨ v = 37 ∨ (60 ≤ v ∧ v ≤ 69)) := by
  have hlist : EXCLUDED_VESSEL_TYPES
      = [30, 36, 37, 60, 61, 62, 63, 64, 65, 66, 67, 68, 69] := by decide
  rw [hlist]
  simp only [List.mem_cons, List.not_mem_nil, or_false]
  omega

/-- C10: the configured date range is inclusive at both endpoints: the date
generator yields exactly the dates `d` with `start ≤ d ≤ end`, each exactly
once (no duplicates), in ascending calendar order — so the `END_DATE` day
itself is processed, not treated as an exclusive bound. -/
theorem C10_generate_dates_inclusive (s e : Nat) :
    (∀ d : Day, d ∈ generate_dates s e ↔ s ≤ d ∧ d ≤ e)
    ∧ List.Sorted (· < ·) (generate_dates s e)
    ∧ (generate_dates s e).Nodup :=
  ⟨fun d => mem_generate_dates s e d, generate_dates_sorted s e, generate_dates_nodup s e⟩

/-- C8: stage 1 of the filter rejects exactly the rows matching the stated
predicates: a row is dropped iff its latitude equals 91, or its longitude
equals 181, or its vessel type code is in the exclusion set
(30, 36, 37, 60–69), or its latitude or longitude falls outside the combined
bounding box; every other row survives stage 1 unchanged. -/
theorem C8_stage1_exact_predicate {α : Type} [LinearOrderedCommRing α]
    (rows : List (Row α)) (leases : List (Lease α)) (r : Row α) :
    r ∈ stage1 rows (get_lease_bounds leases) ↔
      r ∈ rows ∧
      ¬(r.lat = 91 ∨ r.lon = 181
        ∨ (r.vesselType = 30 ∨ r.vesselType = 36 ∨ r.vesselType = 37
            ∨ (60 ≤ r.vesselType ∧ r.vesselType ≤ 69))
        ∨ r.lat < (get_lease_bounds leases).min_lat
        ∨ (get_lease_bounds leases).max_lat < r.lat
        ∨ r.lon < (get_lease_bounds leases).min_lon
        ∨ (get_lease_bounds leases).max_lon < r.lon) := by
  simp only [stage1, List.mem_filter, Bool.and_eq_true, decide_eq_true_eq,
    Bool.not_eq_true', decide_eq_false_iff_not, mem_excluded_iff]
  constructor
  · rintro ⟨hm, ⟨⟨⟨⟨⟨⟨h1, h2⟩, h3⟩, h4⟩, h5⟩, h6⟩, h7⟩⟩
    refine ⟨hm, ?_⟩
    simp only [not_or, not_lt]
    refine ⟨h1, h2, ⟨fun h => h3 (Or.inl h), fun h => h3 (Or.inr (Or.inl h)),
      fun h => h3 (Or.inr (Or.inr (Or.inl h))),
      fun h => h3 (Or.inr (Or.inr (Or.inr h)))⟩, h4, h5, h6, h7⟩
  · rintro ⟨hm, h⟩
    simp only [not_or, not_lt] at h
    obtain ⟨h1, h2, ⟨h3a, h3b, h3c, h3d⟩, h4, h5, h6, h7⟩ := h
    have h3 : ¬(r.vesselType = 30 ∨ r.vesselType = 36 ∨ r.vesselType = 37
        ∨ (60 ≤ r.vesselType ∧ r.vesselType ≤ 69)) := by
      rintro (h | h | h | h)
      · exact h3a h
      · exact h3b h
      · exact h3c h
      · exact h3d h
    exact ⟨hm, ⟨⟨⟨⟨⟨⟨h1, h2⟩, h3⟩, h4⟩, h5⟩, h6⟩, h7⟩⟩

/-- C4: the cleanup invariant: for every day processed — whether it succeeds
or fails — after the day's processing finishes neither the compressed
archive nor the decompressed raw form for that day remains in local transient
storage, before the orchestrator proceeds to the next day. -/
theorem C4_cleanup_invariant {α : Type} [LinearOrderedCommRing α]
    (e : Env α) (d : Day) (fs : FS) :
    (process_date e d fs).2.zip d = false ∧ (process_date e d fs).2.csv d = false :=
  ⟨(process_date_state e d fs).2.1, (process_date_state e d fs).2.2.1⟩

/-- C3: on a fresh invocation the list of days actually processed equals the
configured date range minus the days already present in the progress ledger,
traversed one at a time in ascending calendar order; a day present in the
ledger is never reprocessed. -/
theorem C3_resume_skips_ledger_days {α : Type} [LinearOrderedCommRing α]
    (e : Env α) (s t : Nat) (fs : FS) :
    (main_run e s t fs).2.2.2
        = (generate_dates s t).filter (fun d => decide (d ∉ load_completed_dates fs))
    ∧ List.Sorted (· < ·) (main_run e s t fs).2.2.2
    ∧ ∀ d ∈ load_completed_dates fs, d ∉ (main_run e s t fs).2.2.2 := by
  have htr : (main_run e s t fs).2.2.2 = remainingDays fs s t :=
    processAll_trace e (remainingDays fs s t) fs
  refine ⟨htr, ?_, ?_⟩
  · rw [htr]
    exact remainingDays_sorted fs s t
  · intro d hd
    rw [htr]
    intro hmem
    unfold remainingDays at hmem
    have hfil := List.of_mem_filter hmem
    exact (of_decide_eq_true hfil) hd

/-- C2: for every day on which any per-day stage (fetch, filter or sink)
raises an error, that day is not appended to the progress ledger, and
processing of every subsequent day in the range still takes place: the trace
covers the whole remaining range and every attempted day is counted either
as a success or as a failure. -/
theorem C2_per_day_failure_isolation {α : Type} [LinearOrderedCommRing α]
    (e : Env α) (s t : Nat) (fs : FS) :
    (main_run e s t fs).2.2.2 = remainingDays fs s t
    ∧ (main_run e s t fs).2.1 + (main_run e s t fs).2.2.1 = (remainingDays fs s t).length
    ∧ ∀ d ∈ remainingDays fs s t, dayOk e d (fs.zip d) (fs.csv d) = false →
        d ∉ (main_run e s t fs).1.ledger := by
  obtain ⟨hledger, _⟩ :=
    processAll_spec e (remainingDays fs s t) fs (remainingDays_nodup fs s t)
  refine ⟨processAll_trace e (remainingDays fs s t) fs,
    processAll_counts e (remainingDays fs s t) fs, ?_⟩
  intro d hd hnot
  have hd_not_led : d ∉ fs.ledger := by
    unfold remainingDays at hd
    have hfil := List.of_mem_filter hd
    exact of_decide_eq_true hfil
  show d ∉ (processAll e (remainingDays fs s t) fs).1.ledger
  rw [hledger]
  intro hmem
  rcases List.mem_append.mp hmem with h | h
  · exact hd_not_led h
  · have := List.of_mem_filter h
    rw [hnot] at this
    exact Bool.false_ne_true this

/-- C1 counterexample: with an unparsable polygon source (and everything
else fine), the run is NOT aborted: the polygon-load error is caught at the
orchestrator's per-day boundary and converted into a per-day Failed outcome
(`process_date` returns `false` normally), and the traversal still covers
every day of the range — here both days of a two-day range are attempted
and marked failed, with nothing appended to the ledger. -/
theorem C1_counterexample_polygon_error_is_caught :
    (process_date wEnvNoPoly 0 wFS0).1 = false
    ∧ (main_run wEnvNoPoly 0 1 wFS0).2.2.2 = [0, 1]
    ∧ (main_run wEnvNoPoly 0 1 wFS0).2.2.1 = 2
    ∧ (main_run wEnvNoPoly 0 1 wFS0).2.1 = 0
    ∧ (main_run wEnvNoPoly 0 1 wFS0).1.ledger = [] := by
  have hrem : remainingDays wFS0 0 1 = [0, 1] := by
    unfold remainingDays
    rw [generate_dates_eq_range]
    decide
  have h : main_run wEnvNoPoly 0 1 wFS0 = processAll wEnvNoPoly [0, 1] wFS0 := by
    show processAll wEnvNoPoly (remainingDays wFS0 0 1) wFS0 = _
    rw [hrem]
  rw [h]
  exact ⟨by decide, by decide, by decide, by decide, by decide⟩

/-- C1 (amended): if the polygon source is missing or unparsable, the run is
not aborted; the polygon-load error is caught at the per-day boundary like
any other per-day error, every remaining day is still attempted and marked
Failed, and the ledger is left unchanged (so every day is eligible for retry
on the next run). -/
theorem C1_amended_polygon_error_fails_every_day {α : Type} [LinearOrderedCommRing α]
    (e : Env α) (s t : Nat) (fs : FS) (h : e.polygonOk = false) :
    (main_run e s t fs).1.ledger = fs.ledger
    ∧ (main_run e s t fs).2.1 = 0
    ∧ (main_run e s t fs).2.2.1 = (remainingDays fs s t).length
    ∧ (main_run e s t fs).2.2.2 = remainingDays fs s t := by
  have hday : ∀ (d : Day) (zipP csvP : Bool), dayOk e d zipP csvP = false := by
    intro d zipP csvP
    simp [dayOk, h]
  obtain ⟨hledger, hsucc⟩ :=
    processAll_spec e (remainingDays fs s t) fs (remainingDays_nodup fs s t)
  have hfilter : (remainingDays fs s t).filter
      (fun d => dayOk e d (fs.zip d) (fs.csv d)) = [] := by
    rw [List.filter_eq_nil_iff]
    intro a _
    simp [hday]
  have hs0 : (main_run e s t fs).2.1 = 0 := by
    show (processAll e (remainingDays fs s t) fs).2.1 = 0
    rw [hsucc, hfilter]
    rfl
  have hcount := processAll_counts e (remainingDays fs s t) fs
  refine ⟨?_, hs0, ?_, processAll_trace e (remainingDays fs s t) fs⟩
  · show (processAll e (remainingDays fs s t) fs).1.ledger = fs.ledger
    rw [hledger, hfilter, List.append_nil]
  · have : (main_run e s t fs).2.1 + (main_run e s t fs).2.2.1
        = (remainingDays fs s t).length := hcount
    omega

/-- C5: a day whose filtering yields zero surviving records is a normal
Completed outcome: the sink performs no write and returns the explicit empty
signal `none` inside a success value (distinct from the failure branch), no
output file is created, the day is appended to the progress ledger, and it
is never retried by a later invocation (it is excluded from every later
remaining-day computation). -/
theorem C5_empty_result_completes {α : Type} [LinearOrderedCommRing α]
    (e : Env α) (d : Day) (fs : FS)
    (hp : e.polygonOk = true) (hc : e.csvOk d = true)
    (hfetch : fs.csv d = true ∨ (e.extractOk d = true ∧ (fs.zip d = true ∨ e.netOk d = true)))
    (hempty : process_filter (e.rows d) e.leases = []) :
    (∀ fs' : FS, process_ais e d fs' = (Except.ok none, fs'))
    ∧ (process_date e d fs).1 = true
    ∧ (process_date e d fs).2.outputs = fs.outputs
    ∧ (processAll e [d] fs).1.ledger = fs.ledger ++ [d]
    ∧ ∀ s' t' : Nat, d ∉ remainingDays (processAll e [d] fs).1 s' t' := by
  have hproc : ∀ fs' : FS, process_ais e d fs' = (Except.ok none, fs') := by
    intro fs'
    unfold process_ais
    rw [hp, hc, hempty]
    simp
  have hfOk : fetchOk e d (fs.zip d) (fs.csv d) = true := by
    rcases hfetch with h | ⟨h1, h2⟩
    · simp [fetchOk, h]
    · rcases h2 with h2 | h2 <;> simp [fetchOk, h1, h2]
  have hone : (process_date e d fs).1 = true := by
    rw [process_date_fst]
    simp [dayOk, hfOk, hp, hc, hempty]
  have houts : (process_date e d fs).2.outputs = fs.outputs := by
    have hdo : exceptOk (download_ais e d fs).1 = true := by
      rw [download_ais_isOk]
      exact hfOk
    unfold process_date
    rw [hdo, if_pos rfl, hproc (download_ais e d fs).2]
    simp [exceptOk, cleanup_download_outputs, download_ais_outputs]
  have hledger : (processAll e [d] fs).1.ledger = fs.ledger ++ [d] := by
    simp only [processAll, hone, if_true]
    rw [mark_completed_ledger, (process_date_state e d fs).1]
  refine ⟨hproc, hone, houts, hledger, ?_⟩
  intro s' t' hmem
  unfold remainingDays at hmem
  have hfil := List.of_mem_filter hmem
  have hnot : d ∉ (processAll e [d] fs).1.ledger := of_decide_eq_true hfil
  apply hnot
  rw [hledger]
  exact List.mem_append.mpr (Or.inr (List.mem_singleton.mpr rfl))

/-- C6: the containment predicate of the spatial join is strict `within`,
not `touches`: a point exactly on a lease polygon's boundary does not
satisfy `within` for that polygon, so it can only appear in the output
tagged with that polygon's identifier if some other polygon strictly
contains it (non-overlapping polygons rule this out); and every row whose
point is strictly interior to a lease polygon and which survives stage 1 is
retained and tagged with that polygon's identifier. -/
theorem C6_containment_strict_within {α : Type} [LinearOrderedCommRing α]
    (rows : List (Row α)) (leases : List (Lease α)) (r : Row α) (lease : Lease α)
    (hL : lease ∈ leases) :
    (onBoundary (rowPt r) lease.ring = true →
      pointWithin (rowPt r) lease.ring = false
      ∧ ((r, lease.leaseNumber) ∈ process_filter rows leases →
            ∃ L ∈ leases, L.leaseNumber = lease.leaseNumber
              ∧ pointWithin (rowPt r) L.ring = true))
    ∧ (pointWithin (rowPt r) lease.ring = true →
        r ∈ stage1 rows (get_lease_bounds leases) →
          (r, lease.leaseNumber) ∈ process_filter rows leases) := by
  constructor
  · intro hb
    constructor
    · simp [pointWithin, hb]
    · intro hmem
      simp only [process_filter, sjoin_within, List.mem_flatMap, List.mem_map,
        List.mem_filter] at hmem
      obtain ⟨row, _, L, ⟨hLmem, hwithin⟩, heq⟩ := hmem
      obtain ⟨hrow, hnum⟩ := Prod.mk.injEq .. ▸ heq
      exact ⟨L, hLmem, hnum, hrow ▸ hwithin⟩
  · intro hw hs
    simp only [process_filter, sjoin_within, List.mem_flatMap, List.mem_map,
      List.mem_filter]
    exact ⟨r, hs, lease, ⟨hL, hw⟩, rfl⟩

/-- C7: prefilter soundness: if a row's point lies strictly within some
lease polygon, the bounding-box prefilter does not reject it — its latitude
and longitude satisfy all four bounding-box comparisons of stage 1 — and
the combined bounding box of all lease polygons contains every vertex of
that polygon's extent. -/
theorem C7_prefilter_soundness {α : Type} [LinearOrderedCommRing α]
    (leases : List (Lease α)) (r : Row α) (lease : Lease α)
    (h1 : lease ∈ leases) (h2 : pointWithin (rowPt r) lease.ring = true) :
    ((get_lease_bounds leases).min_lat ≤ r.lat
      ∧ r.lat ≤ (get_lease_bounds leases).max_lat
      ∧ (get_lease_bounds leases).min_lon ≤ r.lon
      ∧ r.lon ≤ (get_lease_bounds leases).max_lon)
    ∧ ∀ v ∈ lease.ring, inBounds (get_lease_bounds leases) v := by
  have hv : ∀ v ∈ lease.ring, inBounds (get_lease_bounds leases) v := by
    intro v hvm
    apply mem_ptsBounds
    exact List.mem_flatMap.mpr ⟨lease, h1, hvm⟩
  have hp := pointWithin_inBounds lease.ring (rowPt r) (get_lease_bounds leases) hv h2
  exact ⟨⟨hp.2.2.1, hp.2.2.2, hp.1, hp.2.1⟩, hv⟩

/-- C9: the fetch is idempotent: if the decompressed CSV for the day already
exists locally, the fetcher performs zero network or extraction operations,
leaves the state unchanged, and returns the day's CSV path (so a repeated
call returns the same path); if only the compressed archive exists, the
download is skipped and only the decompression is performed; and every
successful call returns the same deterministic CSV path for the day. -/
theorem C9_idempotent_fetch {α : Type} (e : Env α) (d : Day) (fs : FS) :
    (fs.csv d = true →
      download_ais e d fs = (Except.ok (EPath.csvFile d, []), fs))
    ∧ (fs.csv d = false → fs.zip d = true → e.extractOk d = true →
      download_ais e d fs
        = (Except.ok (EPath.csvFile d, [FetchEv.extract]),
            { fs with csv := fsSet fs.csv d true }))
    ∧ ∀ (fs' : FS) (p : EPath) (evs : List FetchEv) (fs'' : FS),
        download_ais e d fs' = (Except.ok (p, evs), fs'') → p = EPath.csvFile d := by
  refine ⟨?_, ?_, ?_⟩
  · intro h
    unfold download_ais
    rw [h]
    simp
  · intro h1 h2 h3
    unfold download_ais
    rw [h1, h2, h3]
    simp
  · intro fs' p evs fs'' h
    unfold download_ais at h
    cases hc : fs'.csv d <;> cases hz : fs'.zip d <;> cases hn : e.netOk d <;>
      cases hx : e.extractOk d <;> rw [hc, hz, hn, hx] at h <;> simp_all

/-- Witness for the amended C1 at a concrete input. -/
theorem C1_amended_witness :
    wEnvNoPoly.polygonOk = false
    ∧ (main_run wEnvNoPoly 3 4 wFS0).1.ledger = wFS0.ledger
    ∧ (main_run wEnvNoPoly 3 4 wFS0).2.1 = 0 :=
  ⟨rfl, (C1_amended_polygon_error_fails_every_day wEnvNoPoly 3 4 wFS0 rfl).1,
    (C1_amended_polygon_error_fails_every_day wEnvNoPoly 3 4 wFS0 rfl).2.1⟩

/-- Witness for C2 at a concrete input: in a three-day range the middle day
fails its network transfer and ends up outside the final ledger. -/
theorem C2_witness :
    (1 ∈ remainingDays wFS0 0 2
      ∧ dayOk wEnvNetFail 1 (wFS0.zip 1) (wFS0.csv 1) = false)
    ∧ 1 ∉ (main_run wEnvNetFail 0 2 wFS0).1.ledger := by
  have hmem : 1 ∈ remainingDays wFS0 0 2 := by
    unfold remainingDays
    rw [generate_dates_eq_range]
    decide
  exact ⟨⟨hmem, by decide⟩,
    (C2_per_day_failure_isolation wEnvNetFail 0 2 wFS0).2.2 1 hmem (by decide)⟩

/-- Witness for C3 at a concrete input: day 5 is already in the ledger and
is not among the processed days. -/
theorem C3_witness :
    5 ∈ load_completed_dates wFSLedger
    ∧ 5 ∉ (main_run wEnvGood 4 6 wFSLedger).2.2.2 :=
  ⟨by decide, (C3_resume_skips_ledger_days wEnvGood 4 6 wFSLedger).2.2 5 (by decide)⟩

/-- Witness for C5 at a concrete input: a day whose single record has an
excluded vessel type completes and is marked in the ledger. -/
theorem C5_witness :
    process_filter (wEnvEmpty.rows 0) wEnvEmpty.leases = []
    ∧ (process_date wEnvEmpty 0 wFS0).1 = true
    ∧ (processAll wEnvEmpty [0] wFS0).1.ledger = wFS0.ledger ++ [0] := by
  have hempty : process_filter (wEnvEmpty.rows 0) wEnvEmpty.leases = [] := by decide
  have h := C5_empty_result_completes wEnvEmpty 0 wFS0 rfl rfl
    (Or.inr ⟨rfl, Or.inr rfl⟩) hempty
  exact ⟨hempty, h.2.1, h.2.2.2.1⟩

/-- Witness for C6 at concrete inputs: a boundary point is not `within` the
square lease, and the interior row is retained tagged with the lease
identifier. -/
theorem C6_witness :
    (onBoundary (rowPt wRowBoundary) wLease.ring = true
      ∧ pointWithin (rowPt wRowBoundary) wLease.ring = false)
    ∧ (wRowIn, wLease.leaseNumber) ∈ process_filter [wRowIn] [wLease] := by
  refine ⟨⟨by decide, ?_⟩, ?_⟩
  · exact ((C6_containment_strict_within [wRowBoundary] [wLease] wRowBoundary wLease
      (by decide)).1 (by decide)).1
  · exact (C6_containment_strict_within [wRowIn] [wLease] wRowIn wLease
      (by decide)).2 (by decide) (by decide)

/-- Witness for C7 at a concrete input. -/
theorem C7_witness :
    (wLease ∈ [wLease] ∧ pointWithin (rowPt wRowIn) wLease.ring = true)
    ∧ (get_lease_bounds [wLease]).min_lat ≤ wRowIn.lat :=
  ⟨⟨by decide, by decide⟩,
    (C7_prefilter_soundness [wLease] wRowIn wLease (by decide) (by decide)).1.1⟩

/-- Witness for C9 at concrete inputs: with the CSV already present the
fetcher performs no operation at all; with only the zip present it performs
exactly one extraction. -/
theorem C9_witness :
    (wFSCsv.csv 3 = true
      ∧ download_ais wEnvGood 3 wFSCsv = (Except.ok (EPath.csvFile 3, []), wFSCsv))
    ∧ download_ais wEnvGood 3 wFSZip
        = (Except.ok (EPath.csvFile 3, [FetchEv.extract]),
            { wFSZip with csv := fsSet wFSZip.csv 3 true }) :=
  ⟨⟨rfl, (C9_idempotent_fetch wEnvGood 3 wFSCsv).1 rfl⟩,
    (C9_idempotent_fetch wEnvGood 3 wFSZip).2.1 rfl rfl rfl⟩
